import Mathlib

/-!
# Verification of the postgresql-embedded artifact pipeline

Shallow embedding of the release-resolution, asset-selection, hash-extraction,
tar-extraction and zip-install logic of the repository
(`postgresql_archive/src/archive.rs` and
`postgresql_extensions/src/repository/portal_corp/repository.rs`),
together with theorems checking the specification's claims about them.

The `Version` data type (component fields, `matches`, parsing, display and
ordering) lives in `postgresql_archive/src/version.rs`, which is not part of
the sources under verification; it is modelled from the specification's data
model (partially specified semantic version with wildcard matching,
component-wise comparison, and explicit parse failure on malformed input).
-/

namespace PgEmbedded

/-! ## Decimal digits: printing and parsing of one numeric component -/

/-- The character for a single decimal digit `d < 10`. -/
def digitChar (d : Nat) : Char := Char.ofNat (48 + d)

/-- Fuel-driven helper for decimal printing (structural recursion so that
terms evaluate by reduction). -/
def natCharsAux : Nat → Nat → List Char
  | 0, _ => []
  | fuel + 1, n =>
    if n < 10 then [digitChar n]
    else natCharsAux fuel (n / 10) ++ [digitChar (n % 10)]

/-- Decimal printing of a natural number, most significant digit first.
Canonical: no leading zeros, `0` prints as `"0"`. -/
def natChars (n : Nat) : List Char := natCharsAux (n + 1) n

/-- Numeric value of a digit character. -/
def digitVal (c : Char) : Nat := c.toNat - 48

/-- Value of a digit string, most significant digit first. -/
def valOfDigits (ds : List Char) : Nat := ds.foldl (fun a c => a * 10 + digitVal c) 0

/-! ## Splitting on dots -/

/-- Split a character list at every `'.'` (the separators are dropped),
mirroring how a `major.minor.patch` tag string decomposes into components. -/
def splitDots : List Char → List (List Char)
  | [] => [[]]
  | c :: rest =>
    if c = '.' then [] :: splitDots rest
    else
      match splitDots rest with
      | [] => [[c]]
      | g :: gs => (c :: g) :: gs

/-! ## The Version data model

Modelled from the spec: `postgresql_archive/src/version.rs` is not among the
sources under verification. The spec's data model section defines the shape
(`{major: uint, minor: optional<uint>, patch: optional<uint>}` — the code
calls the third component `release`), the wildcard `matches` relation, the
component-wise total order, explicit parse failure on malformed tags, and the
`major[.minor[.patch]]` display format used to build tag strings and asset
names. Components absent in the constraint act as wildcards; parsing accepts
only canonical decimal components (no leading zeros, no signs). An absent
component is ordered before any present one; this choice is invisible on the
fully specified versions the spec's ordering covers. -/

structure Version where
  major : Nat
  minor : Option Nat
  release : Option Nat
deriving DecidableEq, Repr

/-- Wildcard matching: every component present in the constraint `self` must
equal the corresponding component of `other`. Modelled from the spec. -/
def Version.matches (self other : Version) : Bool :=
  self.major = other.major &&
    (self.minor.isNone || self.minor = other.minor) &&
    (self.release.isNone || self.release = other.release)

/-- Strict order of optional components: absent before present, numeric
order on present ones. Modelled from the spec. -/
def optLt : Option Nat → Option Nat → Bool
  | none, some _ => true
  | some x, some y => x < y
  | _, _ => false

/-- Component-wise strict order: major, then minor, then release.
Modelled from the spec. -/
def Version.lt (a b : Version) : Bool :=
  a.major < b.major ||
    (a.major = b.major &&
      (optLt a.minor b.minor ||
        (a.minor = b.minor && optLt a.release b.release)))

/-- Display: `major[.minor[.release]]`, components in canonical decimal.
Modelled from the spec. -/
def Version.toChars (v : Version) : List Char :=
  natChars v.major ++
    (match v.minor with
     | none => []
     | some m =>
       '.' :: natChars m ++
         (match v.release with
          | none => []
          | some r => '.' :: natChars r))

/-- String form of `Version.toChars`. -/
def Version.toString (v : Version) : String := String.mk v.toChars

/-- Parse one canonical decimal component: nonempty, all digits, and no
leading zero unless the component is exactly `0`. -/
def parseComponent (ds : List Char) : Option Nat :=
  if ds ≠ [] ∧ (∀ c ∈ ds, c.isDigit = true) ∧ (ds = ['0'] ∨ ds.head? ≠ some '0')
  then some (valOfDigits ds) else none

instance (ds : List Char) :
    Decidable (ds ≠ [] ∧ (∀ c ∈ ds, c.isDigit = true) ∧ (ds = ['0'] ∨ ds.head? ≠ some '0')) :=
  inferInstance

/-- Errors of the archive pipeline, from `postgresql_archive/src/error.rs`'s
variants used in `archive.rs`; `ParseVersion` stands for the version parse
error and `Transport` for propagated network/HTTP failures (both live outside
the sources under verification and are modelled from the spec's error list). -/
inductive ArchiveError where
  | ReleaseNotFound (version : String)
  | AssetNotFound (name : String)
  | AssetHashNotFound (name : String)
  | Unexpected (message : String)
  | ParseVersion (input : String)
  | Transport (message : String)
deriving DecidableEq, Repr

instance {ε α : Type} [DecidableEq ε] [DecidableEq α] : DecidableEq (Except ε α) := fun a b =>
  match a, b with
  | .ok x, .ok y =>
    decidable_of_iff (x = y) ⟨fun h => by rw [h], fun h => by cases h; rfl⟩
  | .error x, .error y =>
    decidable_of_iff (x = y) ⟨fun h => by rw [h], fun h => by cases h; rfl⟩
  | .ok _, .error _ => isFalse (fun h => by cases h)
  | .error _, .ok _ => isFalse (fun h => by cases h)

/-- Parsing a tag string into a `Version`: one to three dot-separated
canonical decimal components; anything else fails explicitly.
Modelled from the spec. -/
def Version.fromStr (s : String) : Except ArchiveError Version :=
  match splitDots s.data with
  | [d1] =>
    match parseComponent d1 with
    | some a => .ok ⟨a, none, none⟩
    | none => .error (.ParseVersion s)
  | [d1, d2] =>
    match parseComponent d1, parseComponent d2 with
    | some a, some b => .ok ⟨a, some b, none⟩
    | _, _ => .error (.ParseVersion s)
  | [d1, d2, d3] =>
    match parseComponent d1, parseComponent d2, parseComponent d3 with
    | some a, some b, some c => .ok ⟨a, some b, some c⟩
    | _, _, _ => .error (.ParseVersion s)
  | _ => .error (.ParseVersion s)

/-! ## Releases, assets, and release resolution (`archive.rs`, `get_release`)

The GitHub release listing and exact-tag endpoints are the network inputs of
`get_release`; they are modelled as explicit arguments: `pages` is the
paginated listing (the loop requests successive pages and stops at the first
empty one) and `exact` is the `/releases/tags/{version}` endpoint, which per
the spec returns the release for an exact tag string or a not-found response
(surfaced by `error_for_status` as a transport error, not `ReleaseNotFound`). -/

structure Asset where
  name : String
  browser_download_url : String
deriving DecidableEq, Repr

structure Release where
  tag_name : String
  assets : List Asset
deriving DecidableEq, Repr

/-- The releases the pagination loop actually scans: the loop breaks at the
first empty page, so only the pages before it are seen, in order. -/
def listedReleases (pages : List (List Release)) : List Release :=
  (pages.takeWhile (fun p => !p.isEmpty)).flatten

/-- The inner loop of `get_release` (archive.rs lines 91–106): parse every
tag, keep the matching release with the greatest version so far (the current
best's tag is re-parsed at each comparison, as in the source). -/
def scanReleases (version : Version) : Option Release → List Release → Except ArchiveError (Option Release)
  | best, [] => .ok best
  | best, r :: rest =>
    match Version.fromStr r.tag_name with
    | .error e => .error e
    | .ok release_version =>
      if version.matches release_version then
        match best with
        | some result_release =>
          match Version.fromStr result_release.tag_name with
          | .error e => .error e
          | .ok result_version =>
            scanReleases version
              (if Version.lt result_version release_version then some r else best) rest
        | none => scanReleases version (some r) rest
      else
        scanReleases version best rest

/-- The fully-specified branch of `get_release` (archive.rs lines 67–75):
direct lookup by exact tag string; a not-found response surfaces as a
transport error via `error_for_status`. -/
def getReleaseByTag (exact : String → Option Release) (version : Version) :
    Except ArchiveError Release :=
  match exact (Version.toString version) with
  | some release => .ok release
  | none => .error (.Transport "error_for_status")

/-- The enumeration branch of `get_release` (archive.rs lines 77–114). -/
def getReleaseByPages (pages : List (List Release)) (version : Version) :
    Except ArchiveError Release :=
  match scanReleases version none (listedReleases pages) with
  | .error e => .error e
  | .ok (some release) => .ok release
  | .ok none => .error (.ReleaseNotFound (Version.toString version))

/-- `get_release` (archive.rs lines 63–115): exact lookup when the constraint
is fully specified, page enumeration otherwise. -/
def getRelease (exact : String → Option Release) (pages : List (List Release))
    (version : Version) : Except ArchiveError Release :=
  if version.minor.isSome && version.release.isSome then
    getReleaseByTag exact version
  else
    getReleaseByPages pages version

/-- Modelled from the spec: the exact-tag lookup endpoint, serving the same
catalog data as the paginated listing — it "returns a single release for a
fully-specified tag, or a not-found response". The catalog release with the
requested tag string, if any. -/
def exactFor (pages : List (List Release)) : String → Option Release :=
  fun tag => (listedReleases pages).find? (fun rl => rl.tag_name == tag)

/-! ## Asset resolution (`archive.rs`, `get_asset`) -/

/-- The conventional archive asset name
`postgresql-<version>-<target>.tar.gz` (archive.rs line 134). -/
def archiveAssetName (asset_version : Version) (target : String) : String :=
  "postgresql-" ++ Version.toString asset_version ++ "-" ++ target ++ ".tar.gz"

/-- One loop iteration's update of the archive-asset slot
(archive.rs line 138). -/
def assetStep (asset_name : String) (asset? : Option Asset) (release_asset : Asset) :
    Option Asset :=
  if release_asset.name = asset_name then some release_asset else asset?

/-- One loop iteration's update of the checksum-asset slot: tried only when
the archive name did not match (archive.rs line 140). -/
def hashStep (asset_name asset_hash_name : String) (asset_hash? : Option Asset)
    (release_asset : Asset) : Option Asset :=
  if ¬ release_asset.name = asset_name ∧ release_asset.name = asset_hash_name then
    some release_asset
  else asset_hash?

/-- The asset-search loop of `get_asset` (archive.rs lines 137–147),
including the early break once both assets are found. -/
def findAssets (asset_name asset_hash_name : String) :
    Option Asset → Option Asset → List Asset → Option Asset × Option Asset
  | asset?, asset_hash?, [] => (asset?, asset_hash?)
  | asset?, asset_hash?, release_asset :: rest =>
    if (assetStep asset_name asset? release_asset).isSome = true ∧
        (hashStep asset_name asset_hash_name asset_hash? release_asset).isSome = true then
      (assetStep asset_name asset? release_asset,
        hashStep asset_name asset_hash_name asset_hash? release_asset)
    else
      findAssets asset_name asset_hash_name (assetStep asset_name asset? release_asset)
        (hashStep asset_name asset_hash_name asset_hash? release_asset) rest

/-- `get_asset` (archive.rs lines 129–154) after release resolution: parse
the release tag, derive the two conventional asset names, search the
release's assets by exact string equality, and demand both. -/
def getAsset (release : Release) (target : String) :
    Except ArchiveError (Version × Asset × Asset) :=
  match Version.fromStr release.tag_name with
  | .error e => .error e
  | .ok asset_version =>
    match findAssets (archiveAssetName asset_version target)
        (archiveAssetName asset_version target ++ ".sha256") none none release.assets with
    | (some asset, some asset_hash) => .ok (asset_version, asset, asset_hash)
    | (none, _) => .error (.AssetNotFound (archiveAssetName asset_version target))
    | (_, none) => .error (.AssetNotFound (archiveAssetName asset_version target))

/-! ## Hash extraction (`archive.rs`, `get_archive_for_target`) -/

/-- The character class `[0-9a-f]` of the checksum regex
(archive.rs line 179). -/
def isHexLower (c : Char) : Bool :=
  ('0' ≤ c && c ≤ '9') || ('a' ≤ c && c ≤ 'f')

/-- `Regex::find` for `[0-9a-f]{64}`: scan left to right and return the
64-character run starting at the first position where one exists
(archive.rs lines 179–183). -/
def findHex64 : List Char → Option (List Char)
  | [] => none
  | c :: rest =>
    if 64 ≤ (c :: rest).length ∧ ((c :: rest).take 64).all isHexLower = true then
      some ((c :: rest).take 64)
    else findHex64 rest

/-- The hash-extraction step of `get_archive_for_target` (archive.rs lines
178–183): locate a 64-character lowercase-hex token in the checksum body,
else fail with `AssetHashNotFound` carrying the archive asset's name. -/
def extractHash (asset : Asset) (text : String) : Except ArchiveError String :=
  match findHex64 text.data with
  | some hash => .ok (String.mk hash)
  | none => .error (.AssetHashNotFound asset.name)

/-! ## Tar extraction (`archive.rs`, `extract`) -/

/-- Split a character list at every `'/'`, mirroring path separators. -/
def splitSlash : List Char → List (List Char)
  | [] => [[]]
  | c :: rest =>
    if c = '/' then [] :: splitSlash rest
    else
      match splitSlash rest with
      | [] => [[c]]
      | g :: gs => (c :: g) :: gs

/-- Rust `Path::components()` normalization: split at `/`, drop empty
components and non-leading `.`, keep a leading root `/` or current-dir `.`
as a component of its own. -/
def rustComponents (s : String) : List String :=
  let parts := (splitSlash s.data).map String.mk
  let tail := parts.filter (fun p => !(p == "" || p == "."))
  if s.data.head? = some '/' then "/" :: tail
  else if parts.head? = some "." then "." :: tail
  else tail

/-- A tar entry as `extract` reads it: header path, declared size and
declared mode (content bytes play no role in path handling). -/
structure TarEntry where
  path : String
  size : Nat
  mode : Nat
deriving DecidableEq, Repr

/-- A write the extraction performs on the filesystem. -/
inductive FsAction where
  | mkdirAll (path : List String)
  | writeFile (path : List String) (mode : Nat)
deriving DecidableEq, Repr

/-- Extraction state over an abstract filesystem: the directories that exist
(queried by `is_dir`) and the log of performed writes; the filesystem
operations themselves are modelled as succeeding. -/
structure ExtractState where
  dirs : List (List String)
  actions : List FsAction
deriving DecidableEq, Repr

/-- Every prefix of a path: the directories `create_dir_all` guarantees. -/
def ancestors (p : List String) : List (List String) :=
  (List.range (p.length + 1)).map (fun i => p.take i)

/-- Processing of one tar entry (archive.rs lines 199–231): take the header
path's first component as the prefix to strip (no path at all is the
`Unexpected` error), join the stripped remainder to `out_dir`, then either
create the directory tree (zero-size entry or existing directory) or write
the file and apply its mode. -/
def extractEntry (out_dir : List String) (st : ExtractState) (e : TarEntry) :
    Except ArchiveError ExtractState :=
  match rustComponents e.path with
  | [] => .error (.Unexpected "Failed to get file header path prefix")
  | _ :: stripped =>
    let file_name := out_dir ++ stripped
    if e.size = 0 ∨ file_name ∈ st.dirs then
      .ok ⟨st.dirs ++ ancestors file_name, st.actions ++ [.mkdirAll file_name]⟩
    else
      .ok ⟨st.dirs, st.actions ++ [.writeFile file_name e.mode]⟩

/-- `extract` (archive.rs lines 194–234): process the archive's entries in
order, stopping at the first failure. -/
def extractTar (out_dir : List String) :
    ExtractState → List TarEntry → Except ArchiveError ExtractState
  | st, [] => .ok st
  | st, e :: rest =>
    match extractEntry out_dir st e with
    | .error e2 => .error e2
    | .ok st2 => extractTar out_dir st2 rest

/-- Resolution of `.` and `..` components, as the OS resolves a written
path. -/
def resolveComponents (p : List String) : List String :=
  p.foldl
    (fun acc c => if c = ".." then acc.dropLast else if c = "." then acc else acc ++ [c]) []

/-- A path stays within `dest` when its resolution still starts with
`dest`. -/
def staysWithin (dest p : List String) : Bool :=
  (resolveComponents p).take dest.length == dest

/-! ## Zip extension install (`portal_corp/repository.rs`, `install`) -/

/-- Rust `str::ends_with`: character-level suffix test. -/
def strEndsWith (s suffix : String) : Bool :=
  suffix.data == s.data.drop (s.data.length - suffix.data.length)

/-- A zip entry as `install` reads it: the stored name and content bytes. -/
structure ZipEntry where
  name : String
  content : List Nat
deriving DecidableEq, Repr

/-- Rust `Path::file_name()`: the final normalized component, unless the
path ends in `..` or has no final normal component (root, `.`, empty). -/
def fileNameOf (s : String) : Option String :=
  match (rustComponents s).getLast? with
  | some c => if c = ".." ∨ c = "/" ∨ c = "." then none else some c
  | none => none

/-- Routing of one zip entry (repository.rs lines 86–102): only the final
file-name component of the stored path is kept (`unwrap_or_default` turns a
missing one into the empty string); shared-library suffixes go to the
library directory, control/SQL suffixes to the extension directory, anything
else is skipped. Returns the written path with the copied bytes. -/
def installEntry (library_dir extension_dir : List String) (e : ZipEntry) :
    Option (List String × List Nat) :=
  let file_name := (fileNameOf e.name).getD ""
  if strEndsWith file_name ".dylib" || strEndsWith file_name ".so" then
    some (library_dir ++ [file_name], e.content)
  else if strEndsWith file_name ".control" || strEndsWith file_name ".sql" then
    some (extension_dir ++ [file_name], e.content)
  else none

/-- `install` (repository.rs lines 70–106): process the zip entries in
order; the first component is the list of writes performed, the second the
returned list of written paths. -/
def install (library_dir extension_dir : List String) :
    List ZipEntry → List (List String × List Nat) × List (List String)
  | [] => ([], [])
  | e :: rest =>
    match installEntry library_dir extension_dir e with
    | some w =>
      ((install library_dir extension_dir rest).1.cons w,
        ((install library_dir extension_dir rest).2).cons w.1)
    | none => install library_dir extension_dir rest

theorem natCharsAux_succ (fuel n : Nat) :
    natCharsAux (fuel + 1) n =
      if n < 10 then [digitChar n] else natCharsAux fuel (n / 10) ++ [digitChar (n % 10)] := rfl

theorem natCharsAux_irrel : ∀ f1 f2 n : Nat, n < f1 → n < f2 →
    natCharsAux f1 n = natCharsAux f2 n := by
  intro f1
  induction f1 with
  | zero => omega
  | succ g1 ih =>
    intro f2 n h1 h2
    cases f2 with
    | zero => omega
    | succ g2 =>
      rw [natCharsAux_succ, natCharsAux_succ]
      split
      · rfl
      · next h =>
        rw [ih g2 (n / 10) (by omega) (by omega)]

/-- The recursive unfolding of `natChars`. -/
theorem natChars_eq (n : Nat) :
    natChars n = if n < 10 then [digitChar n] else natChars (n / 10) ++ [digitChar (n % 10)] := by
  show natCharsAux (n + 1) n = _
  rw [natCharsAux_succ]
  split
  · rfl
  · next h =>
    rw [natCharsAux_irrel n (n / 10 + 1) (n / 10) (by omega) (by omega)]
    rfl

theorem digitChar_toNat {d : Nat} (h : d < 10) : (digitChar d).toNat = 48 + d := by
  interval_cases d <;> decide

theorem digitVal_digitChar {d : Nat} (h : d < 10) : digitVal (digitChar d) = d := by
  interval_cases d <;> decide

theorem digitChar_isDigit {d : Nat} (h : d < 10) : (digitChar d).isDigit = true := by
  interval_cases d <;> decide

theorem digitChar_ne_dot {d : Nat} (h : d < 10) : digitChar d ≠ '.' := by
  interval_cases d <;> decide

theorem natChars_ne_nil (n : Nat) : natChars n ≠ [] := by
  rw [natChars_eq]
  split
  · simp
  · simp

theorem natChars_all_digits (n : Nat) : ∀ c ∈ natChars n, c.isDigit = true := by
  induction n using Nat.strong_induction_on with
  | _ n ih =>
    rw [natChars_eq]
    split
    · next h => simpa using digitChar_isDigit h
    · next h =>
      intro c hc
      rcases List.mem_append.mp hc with h1 | h1
      · exact ih (n / 10) (Nat.div_lt_self (by omega) (by omega)) c h1
      · simp only [List.mem_singleton] at h1
        subst h1
        exact digitChar_isDigit (Nat.mod_lt _ (by omega))

theorem dot_not_mem_natChars (n : Nat) : '.' ∉ natChars n := by
  intro hmem
  have := natChars_all_digits n '.' hmem
  simp at this

theorem valOfDigits_append (xs ys : List Char) :
    valOfDigits (xs ++ ys) = ys.foldl (fun a c => a * 10 + digitVal c) (valOfDigits xs) := by
  unfold valOfDigits
  rw [List.foldl_append]

theorem valOfDigits_natChars (n : Nat) : valOfDigits (natChars n) = n := by
  induction n using Nat.strong_induction_on with
  | _ n ih =>
    rw [natChars_eq]
    split
    · next h =>
      simp [valOfDigits, digitVal_digitChar h]
    · next h =>
      rw [valOfDigits_append, ih (n / 10) (Nat.div_lt_self (by omega) (by omega))]
      simp [valOfDigits, digitVal_digitChar (Nat.mod_lt n (by omega))]
      omega

/-- `natChars` never has a leading `'0'` except for the number zero itself. -/
theorem natChars_head_ne_zero {n : Nat} (h : n ≠ 0) : (natChars n).head? ≠ some '0' := by
  induction n using Nat.strong_induction_on with
  | _ n ih =>
    rw [natChars_eq]
    split
    · next hlt =>
      intro hc
      simp only [List.head?_cons, Option.some.injEq] at hc
      have hv : (digitChar n).toNat = ('0' : Char).toNat := by rw [hc]
      have h48 : ('0' : Char).toNat = 48 := rfl
      rw [digitChar_toNat hlt, h48] at hv
      omega
    · next hlt =>
      have hne : natChars (n / 10) ≠ [] := natChars_ne_nil _
      intro hc
      rw [List.head?_append_of_ne_nil] at hc
      · exact ih (n / 10) (Nat.div_lt_self (by omega) (by omega)) (by omega) hc
      · exact hne

theorem natChars_injective {m n : Nat} (h : natChars m = natChars n) : m = n := by
  have := valOfDigits_natChars m
  rw [h, valOfDigits_natChars] at this
  omega

theorem splitDots_ne_nil (l : List Char) : splitDots l ≠ [] := by
  cases l with
  | nil => simp [splitDots]
  | cons c rest =>
    unfold splitDots
    split
    · simp
    · split <;> simp

theorem splitDots_cons_ne (c : Char) (rest : List Char) (h : ¬ c = '.') :
    splitDots (c :: rest) =
      match splitDots rest with
      | [] => [[c]]
      | g :: gs => (c :: g) :: gs := by
  conv_lhs => unfold splitDots
  rw [if_neg h]

theorem splitDots_no_dot {l : List Char} (h : '.' ∉ l) : splitDots l = [l] := by
  induction l with
  | nil => rfl
  | cons c rest ih =>
    simp only [List.mem_cons, not_or] at h
    have hne : ¬ c = '.' := fun hc => h.1 hc.symm
    rw [splitDots_cons_ne c rest hne, ih h.2]

theorem splitDots_append_dot {xs : List Char} (ys : List Char) (h : '.' ∉ xs) :
    splitDots (xs ++ '.' :: ys) = xs :: splitDots ys := by
  induction xs with
  | nil => simp [splitDots]
  | cons c rest ih =>
    simp only [List.mem_cons, not_or] at h
    have hne : ¬ c = '.' := fun hc => h.1 hc.symm
    simp only [List.cons_append]
    rw [splitDots_cons_ne c _ hne, ih h.2]

/-! ### Lemmas about the Version model -/

theorem parseComponent_natChars (n : Nat) : parseComponent (natChars n) = some n := by
  unfold parseComponent
  rw [if_pos, valOfDigits_natChars]
  refine ⟨natChars_ne_nil n, natChars_all_digits n, ?_⟩
  by_cases h : n = 0
  · subst h
    left
    decide
  · right
    exact natChars_head_ne_zero h

theorem toChars_full (a b c : Nat) :
    Version.toChars ⟨a, some b, some c⟩ =
      natChars a ++ '.' :: (natChars b ++ '.' :: natChars c) := by
  simp [Version.toChars]

/-- Round trip: parsing the canonical rendering of a version yields it back
(for well-formed versions, where a release component implies a minor one). -/
theorem fromStr_toString (v : Version) (hwf : v.minor = none → v.release = none) :
    Version.fromStr (Version.toString v) = .ok v := by
  obtain ⟨a, mi, re⟩ := v
  unfold Version.fromStr Version.toString
  have hdata : (String.mk (Version.toChars ⟨a, mi, re⟩)).data = Version.toChars ⟨a, mi, re⟩ := rfl
  rw [hdata]
  cases mi with
  | none =>
    cases re with
    | none =>
      have h1 : Version.toChars ⟨a, none, none⟩ = natChars a := by simp [Version.toChars]
      rw [h1, splitDots_no_dot (dot_not_mem_natChars a)]
      simp [parseComponent_natChars]
    | some r => simp at hwf
  | some b =>
    cases re with
    | none =>
      have h1 : Version.toChars ⟨a, some b, none⟩ = natChars a ++ '.' :: natChars b := by
        simp [Version.toChars]
      rw [h1, splitDots_append_dot _ (dot_not_mem_natChars a),
        splitDots_no_dot (dot_not_mem_natChars b)]
      simp [parseComponent_natChars]
    | some c =>
      rw [toChars_full, splitDots_append_dot _ (dot_not_mem_natChars a),
        splitDots_append_dot _ (dot_not_mem_natChars b),
        splitDots_no_dot (dot_not_mem_natChars c)]
      simp [parseComponent_natChars]

/-- A fully specified constraint matches exactly itself. -/
theorem matches_full_iff {v w : Version} (h1 : v.minor.isSome) (h2 : v.release.isSome) :
    v.matches w = true ↔ w = v := by
  obtain ⟨a, mi, re⟩ := v
  obtain ⟨a', mi', re'⟩ := w
  cases mi with
  | none => simp at h1
  | some b =>
    cases re with
    | none => simp at h2
    | some c =>
      simp only [Version.matches, Bool.and_eq_true, decide_eq_true_eq, Option.isNone_some,
        Bool.false_or, Version.mk.injEq]
      constructor
      · rintro ⟨⟨hmaj, hmin⟩, hrel⟩
        exact ⟨hmaj.symm, hmin.symm, hrel.symm⟩
      · rintro ⟨hmaj, hmin, hrel⟩
        exact ⟨⟨hmaj.symm, hmin.symm⟩, hrel.symm⟩

theorem Version.matches_refl (v : Version) : v.matches v = true := by
  obtain ⟨a, mi, re⟩ := v
  simp [Version.matches]

theorem optLt_trans {a b c : Option Nat} (h1 : optLt a b = true) (h2 : optLt b c = true) :
    optLt a c = true := by
  cases a <;> cases b <;> cases c <;> simp_all [optLt] <;> omega

theorem optLt_irrefl (a : Option Nat) : optLt a a = false := by
  cases a <;> simp [optLt]

theorem optLt_trichotomy (a b : Option Nat) :
    optLt a b = true ∨ a = b ∨ optLt b a = true := by
  cases a <;> cases b <;> simp [optLt] <;> omega

theorem Version.lt_trans {a b c : Version} (h1 : Version.lt a b = true)
    (h2 : Version.lt b c = true) : Version.lt a c = true := by
  obtain ⟨a1, a2, a3⟩ := a
  obtain ⟨b1, b2, b3⟩ := b
  obtain ⟨c1, c2, c3⟩ := c
  simp only [Version.lt, Bool.or_eq_true, Bool.and_eq_true, decide_eq_true_eq] at *
  rcases h1 with h1 | ⟨hm1, h1⟩ <;> rcases h2 with h2 | ⟨hm2, h2⟩
  · left; omega
  · left; omega
  · left; omega
  · right
    refine ⟨by omega, ?_⟩
    rcases h1 with h1 | ⟨he1, h1⟩ <;> rcases h2 with h2 | ⟨he2, h2⟩
    · exact Or.inl (optLt_trans h1 h2)
    · exact Or.inl (he2 ▸ h1)
    · exact Or.inl (he1 ▸ h2)
    · exact Or.inr ⟨he1.trans he2, optLt_trans h1 h2⟩

theorem Version.lt_irrefl (a : Version) : Version.lt a a = false := by
  obtain ⟨a1, a2, a3⟩ := a
  simp [Version.lt, optLt_irrefl]

theorem Version.lt_trichotomy (a b : Version) :
    Version.lt a b = true ∨ a = b ∨ Version.lt b a = true := by
  obtain ⟨a1, a2, a3⟩ := a
  obtain ⟨b1, b2, b3⟩ := b
  simp only [Version.lt, Bool.or_eq_true, Bool.and_eq_true, decide_eq_true_eq, Version.mk.injEq]
  rcases Nat.lt_trichotomy a1 b1 with h1 | h1 | h1
  · exact Or.inl (Or.inl h1)
  · subst h1
    rcases optLt_trichotomy a2 b2 with h2 | h2 | h2
    · exact Or.inl (Or.inr ⟨rfl, Or.inl h2⟩)
    · subst h2
      rcases optLt_trichotomy a3 b3 with h3 | h3 | h3
      · exact Or.inl (Or.inr ⟨rfl, Or.inr ⟨rfl, h3⟩⟩)
      · exact Or.inr (Or.inl ⟨rfl, rfl, h3⟩)
      · exact Or.inr (Or.inr (Or.inr ⟨rfl, Or.inr ⟨rfl, h3⟩⟩))
    · exact Or.inr (Or.inr (Or.inr ⟨rfl, Or.inl h2⟩))
  · exact Or.inr (Or.inr (Or.inl h1))

/-! ### Lemmas about the release scan -/

/-- `Version.fromStr` fails only with the parse error carrying its input. -/
theorem fromStr_error_shape {s : String} {e : ArchiveError}
    (h : Version.fromStr s = .error e) : e = .ParseVersion s := by
  unfold Version.fromStr at h
  split at h
  · split at h
    · simp at h
    · simp at h
      exact h.symm
  · split at h
    · simp at h
    · simp at h
      exact h.symm
  · split at h
    · simp at h
    · simp at h
      exact h.symm
  · simp at h
    exact h.symm

/-- Step rewrite: the scanned release's tag fails to parse. -/
theorem scan_cons_err {v : Version} {best : Option Release} {r2 : Release} {rest : List Release}
    {e : ArchiveError} (hp : Version.fromStr r2.tag_name = .error e) :
    scanReleases v best (r2 :: rest) = .error e := by
  rw [scanReleases, hp]

/-- Step rewrite: the scanned release does not match the constraint. -/
theorem scan_cons_nomatch {v : Version} {best : Option Release} {r2 : Release}
    {rest : List Release} {rv : Version} (hp : Version.fromStr r2.tag_name = .ok rv)
    (hm : v.matches rv = false) :
    scanReleases v best (r2 :: rest) = scanReleases v best rest := by
  rw [scanReleases, hp]
  simp [hm]

/-- Step rewrite: a matching release with no best yet becomes the best. -/
theorem scan_cons_match_none {v : Version} {r2 : Release} {rest : List Release} {rv : Version}
    (hp : Version.fromStr r2.tag_name = .ok rv) (hm : v.matches rv = true) :
    scanReleases v none (r2 :: rest) = scanReleases v (some r2) rest := by
  rw [scanReleases, hp]
  simp [hm]

/-- Step rewrite: a matching release is compared against the current best. -/
theorem scan_cons_match_some {v : Version} {b r2 : Release} {rest : List Release}
    {rv bv : Version} (hp : Version.fromStr r2.tag_name = .ok rv) (hm : v.matches rv = true)
    (hpb : Version.fromStr b.tag_name = .ok bv) :
    scanReleases v (some b) (r2 :: rest) =
      scanReleases v (if Version.lt bv rv then some r2 else some b) rest := by
  rw [scanReleases, hp]
  simp [hm, hpb]

/-- Step rewrite: the current best's tag fails to re-parse. -/
theorem scan_cons_match_some_err {v : Version} {b r2 : Release} {rest : List Release}
    {rv : Version} {e : ArchiveError} (hp : Version.fromStr r2.tag_name = .ok rv)
    (hm : v.matches rv = true) (hpb : Version.fromStr b.tag_name = .error e) :
    scanReleases v (some b) (r2 :: rest) = .error e := by
  rw [scanReleases, hp]
  simp [hm, hpb]

/-- If the scan returns a release, it is the incoming best or a member of the
scanned list whose tag parses to a version matching the constraint. -/
theorem scan_some_origin {v : Version} (rs : List Release) :
    ∀ (best : Option Release) (r : Release),
      scanReleases v best rs = .ok (some r) →
      best = some r ∨ (r ∈ rs ∧ ∃ w, Version.fromStr r.tag_name = .ok w ∧ v.matches w = true) := by
  induction rs with
  | nil =>
    intro best r h
    simp only [scanReleases, Except.ok.injEq] at h
    exact Or.inl h
  | cons r2 rest ih =>
    intro best r h
    cases hp : Version.fromStr r2.tag_name with
    | error e =>
      rw [scan_cons_err hp] at h
      simp at h
    | ok rv =>
      by_cases hm : v.matches rv = true
      · cases best with
        | none =>
          rw [scan_cons_match_none hp hm] at h
          rcases ih (some r2) r h with h1 | h1
          · simp only [Option.some.injEq] at h1
            subst h1
            exact Or.inr ⟨List.mem_cons_self _ _, rv, hp, hm⟩
          · exact Or.inr ⟨List.mem_cons_of_mem _ h1.1, h1.2⟩
        | some b =>
          cases hpb : Version.fromStr b.tag_name with
          | error e =>
            rw [scan_cons_match_some_err hp hm hpb] at h
            simp at h
          | ok bv =>
            rw [scan_cons_match_some hp hm hpb] at h
            by_cases hlt : Version.lt bv rv = true
            · rw [if_pos hlt] at h
              rcases ih (some r2) r h with h1 | h1
              · simp only [Option.some.injEq] at h1
                subst h1
                exact Or.inr ⟨List.mem_cons_self _ _, rv, hp, hm⟩
              · exact Or.inr ⟨List.mem_cons_of_mem _ h1.1, h1.2⟩
            · rw [if_neg hlt] at h
              rcases ih (some b) r h with h1 | h1
              · exact Or.inl h1
              · exact Or.inr ⟨List.mem_cons_of_mem _ h1.1, h1.2⟩
      · rw [scan_cons_nomatch hp (by simpa using hm)] at h
        rcases ih best r h with h1 | h1
        · exact Or.inl h1
        · exact Or.inr ⟨List.mem_cons_of_mem _ h1.1, h1.2⟩

/-- The scan's final best dominates the incoming best: it is the same
release, or one whose version is strictly greater. -/
theorem scan_dominates_best {v : Version} (rs : List Release) :
    ∀ (b r : Release), scanReleases v (some b) rs = .ok (some r) →
      b = r ∨ ∃ wb wr, Version.fromStr b.tag_name = .ok wb ∧
        Version.fromStr r.tag_name = .ok wr ∧ Version.lt wb wr = true := by
  induction rs with
  | nil =>
    intro b r h
    simp only [scanReleases, Except.ok.injEq, Option.some.injEq] at h
    exact Or.inl h
  | cons r2 rest ih =>
    intro b r h
    cases hp : Version.fromStr r2.tag_name with
    | error e =>
      rw [scan_cons_err hp] at h
      simp at h
    | ok rv =>
      by_cases hm : v.matches rv = true
      · rcases hex : Version.fromStr b.tag_name with e | bv
        · rw [scan_cons_match_some_err hp hm hex] at h
          simp at h
        · rw [scan_cons_match_some hp hm hex] at h
          by_cases hlt : Version.lt bv rv = true
          · rw [if_pos hlt] at h
            rcases ih r2 r h with h1 | h1
            · exact Or.inr ⟨bv, rv, rfl, h1 ▸ hp, hlt⟩
            · rcases h1 with ⟨w2, wr, hp2, hpr, hlt2⟩
              rw [hp] at hp2
              injection hp2 with hp2
              subst hp2
              exact Or.inr ⟨bv, wr, rfl, hpr, Version.lt_trans hlt hlt2⟩
          · rw [if_neg hlt] at h
            have h4 := ih b r h
            rw [hex] at h4
            exact h4
      · rw [scan_cons_nomatch hp (by simpa using hm)] at h
        exact ih b r h

/-- No matching release of the scanned list exceeds the scan's result, and
the result's version is at least every matching one. -/
theorem scan_result_max {v : Version} (rs : List Release) :
    ∀ (best : Option Release) (r : Release), scanReleases v best rs = .ok (some r) →
      ∀ r' ∈ rs, ∀ w', Version.fromStr r'.tag_name = .ok w' → v.matches w' = true →
        ∃ wr, Version.fromStr r.tag_name = .ok wr ∧
          (Version.lt w' wr = true ∨ w' = wr) := by
  induction rs with
  | nil =>
    intro best r _ r' h'
    simp at h'
  | cons r2 rest ih =>
    intro best r h r' hmem w' hw' hm'
    rcases List.mem_cons.mp hmem with rfl | h2
    · cases best with
      | none =>
        rw [scan_cons_match_none hw' hm'] at h
        rcases scan_dominates_best rest r' r h with h1 | h1
        · subst h1
          exact ⟨w', hw', Or.inr rfl⟩
        · rcases h1 with ⟨wb, wr, hb1, hr1, hlt1⟩
          rw [hw'] at hb1
          injection hb1 with hb1
          subst hb1
          exact ⟨wr, hr1, Or.inl hlt1⟩
      | some b =>
        rcases hex : Version.fromStr b.tag_name with e | bv
        · rw [scan_cons_match_some_err hw' hm' hex] at h
          simp at h
        · rw [scan_cons_match_some hw' hm' hex] at h
          by_cases hlt : Version.lt bv w' = true
          · rw [if_pos hlt] at h
            rcases scan_dominates_best rest r' r h with h1 | h1
            · subst h1
              exact ⟨w', hw', Or.inr rfl⟩
            · rcases h1 with ⟨wb, wr, hb1, hr1, hlt1⟩
              rw [hw'] at hb1
              injection hb1 with hb1
              subst hb1
              exact ⟨wr, hr1, Or.inl hlt1⟩
          · rw [if_neg hlt] at h
            rcases scan_dominates_best rest b r h with h1 | h1
            · subst h1
              rcases Version.lt_trichotomy w' bv with h3 | h3 | h3
              · exact ⟨bv, hex, Or.inl h3⟩
              · exact ⟨bv, hex, Or.inr h3⟩
              · exact absurd h3 hlt
            · rcases h1 with ⟨wb, wr, hb1, hr1, hlt1⟩
              rw [hex] at hb1
              injection hb1 with hb1
              subst hb1
              rcases Version.lt_trichotomy w' bv with h3 | h3 | h3
              · exact ⟨wr, hr1, Or.inl (Version.lt_trans h3 hlt1)⟩
              · subst h3
                exact ⟨wr, hr1, Or.inl hlt1⟩
              · exact absurd h3 hlt
    · cases hp : Version.fromStr r2.tag_name with
      | error e =>
        rw [scan_cons_err hp] at h
        simp at h
      | ok rv =>
        by_cases hm : v.matches rv = true
        · cases best with
          | none =>
            rw [scan_cons_match_none hp hm] at h
            exact ih (some r2) r h r' h2 w' hw' hm'
          | some b =>
            rcases hex : Version.fromStr b.tag_name with e | bv
            · rw [scan_cons_match_some_err hp hm hex] at h
              simp at h
            · rw [scan_cons_match_some hp hm hex] at h
              exact ih _ r h r' h2 w' hw' hm'
        · rw [scan_cons_nomatch hp (by simpa using hm)] at h
          exact ih best r h r' h2 w' hw' hm'

/-- If the scan ends with no best release, it started with none and no
scanned release matches. -/
theorem scan_none_no_match {v : Version} (rs : List Release) :
    ∀ best, scanReleases v best rs = .ok none →
      best = none ∧
        ∀ r' ∈ rs, ∀ w', Version.fromStr r'.tag_name = .ok w' → v.matches w' = false := by
  induction rs with
  | nil =>
    intro best h
    simp only [scanReleases, Except.ok.injEq] at h
    exact ⟨h, by simp⟩
  | cons r2 rest ih =>
    intro best h
    cases hp : Version.fromStr r2.tag_name with
    | error e =>
      rw [scan_cons_err hp] at h
      simp at h
    | ok rv =>
      by_cases hm : v.matches rv = true
      · cases best with
        | none =>
          rw [scan_cons_match_none hp hm] at h
          have h1 := (ih _ h).1
          simp at h1
        | some b =>
          rcases hex : Version.fromStr b.tag_name with e | bv
          · rw [scan_cons_match_some_err hp hm hex] at h
            simp at h
          · rw [scan_cons_match_some hp hm hex] at h
            by_cases hlt : Version.lt bv rv = true
            · rw [if_pos hlt] at h
              have h1 := (ih _ h).1
              simp at h1
            · rw [if_neg hlt] at h
              have h1 := (ih _ h).1
              simp at h1
      · rw [scan_cons_nomatch hp (by simpa using hm)] at h
        obtain ⟨h1, h2⟩ := ih best h
        refine ⟨h1, ?_⟩
        intro r' hmem w' hw'
        rcases List.mem_cons.mp hmem with rfl | hr
        · rw [hp] at hw'
          injection hw' with hw'
          subst hw'
          simpa using hm
        · exact h2 r' hr w' hw'

/-- If every scanned release parses and none matches, the scan yields no
best release. -/
theorem scan_none_of_no_match {v : Version} (rs : List Release)
    (hall : ∀ r' ∈ rs, ∃ w', Version.fromStr r'.tag_name = .ok w' ∧ v.matches w' = false) :
    scanReleases v none rs = .ok none := by
  induction rs with
  | nil => rfl
  | cons r2 rest ih =>
    obtain ⟨w2, hw2, hm2⟩ := hall r2 (List.mem_cons_self _ _)
    rw [scan_cons_nomatch hw2 hm2]
    exact ih (fun r' hr => hall r' (List.mem_cons_of_mem _ hr))

/-- If every scanned tag parses (and the incoming best's does), the scan
succeeds. -/
theorem scan_ok_of_parses {v : Version} (rs : List Release) :
    ∀ best, (∀ r' ∈ rs, ∃ w', Version.fromStr r'.tag_name = .ok w') →
      (∀ b, best = some b → ∃ wb, Version.fromStr b.tag_name = .ok wb) →
      ∃ o, scanReleases v best rs = .ok o := by
  induction rs with
  | nil =>
    intro best _ _
    exact ⟨best, rfl⟩
  | cons r2 rest ih =>
    intro best hall hbest
    obtain ⟨rv, hrv⟩ := hall r2 (List.mem_cons_self _ _)
    have hrest : ∀ r' ∈ rest, ∃ w', Version.fromStr r'.tag_name = .ok w' :=
      fun r' hr => hall r' (List.mem_cons_of_mem _ hr)
    by_cases hm : v.matches rv = true
    · cases best with
      | none =>
        rw [scan_cons_match_none hrv hm]
        refine ih (some r2) hrest ?_
        intro b hb
        injection hb with hb
        exact ⟨rv, hb ▸ hrv⟩
      | some b =>
        obtain ⟨bv, hbv⟩ := hbest b rfl
        rw [scan_cons_match_some hrv hm hbv]
        by_cases hlt : Version.lt bv rv = true
        · rw [if_pos hlt]
          refine ih (some r2) hrest ?_
          intro b' hb'
          injection hb' with hb'
          exact ⟨rv, hb' ▸ hrv⟩
        · rw [if_neg hlt]
          refine ih (some b) hrest ?_
          intro b' hb'
          injection hb' with hb'
          exact ⟨bv, hb' ▸ hbv⟩
    · rw [scan_cons_nomatch hrv (by simpa using hm)]
      exact ih best hrest hbest

/-- A scan failure is always a version-parse failure. -/
theorem scan_error_parse {v : Version} (rs : List Release) :
    ∀ best e, scanReleases v best rs = .error e → ∃ s, e = .ParseVersion s := by
  induction rs with
  | nil =>
    intro best e h
    simp [scanReleases] at h
  | cons r2 rest ih =>
    intro best e h
    cases hp : Version.fromStr r2.tag_name with
    | error e2 =>
      rw [scan_cons_err hp] at h
      injection h with h
      exact ⟨r2.tag_name, h ▸ fromStr_error_shape hp⟩
    | ok rv =>
      by_cases hm : v.matches rv = true
      · cases best with
        | none =>
          rw [scan_cons_match_none hp hm] at h
          exact ih _ e h
        | some b =>
          rcases hex : Version.fromStr b.tag_name with e2 | bv
          · rw [scan_cons_match_some_err hp hm hex] at h
            injection h with h
            exact ⟨b.tag_name, h ▸ fromStr_error_shape hex⟩
          · rw [scan_cons_match_some hp hm hex] at h
            exact ih _ e h
      · rw [scan_cons_nomatch hp (by simpa using hm)] at h
        exact ih best e h

/-- A release with an unparseable tag anywhere in the scanned list makes the
whole scan fail. -/
theorem scan_err_of_bad_tag {v : Version} (rs : List Release) :
    ∀ best, (∃ r' ∈ rs, ∀ w', ¬ Version.fromStr r'.tag_name = .ok w') →
      (∀ b, best = some b → ∃ wb, Version.fromStr b.tag_name = .ok wb) →
      ∃ e, scanReleases v best rs = .error e := by
  induction rs with
  | nil =>
    intro best h _
    simp at h
  | cons r2 rest ih =>
    intro best hbad hbest
    cases hp : Version.fromStr r2.tag_name with
    | error e => exact ⟨e, scan_cons_err hp⟩
    | ok rv =>
      obtain ⟨r', hr', hbadr⟩ := hbad
      rcases List.mem_cons.mp hr' with rfl | hmem
      · exact absurd hp (hbadr rv)
      · by_cases hm : v.matches rv = true
        · cases best with
          | none =>
            rw [scan_cons_match_none hp hm]
            refine ih (some r2) ⟨r', hmem, hbadr⟩ ?_
            intro b hb
            injection hb with hb
            exact ⟨rv, hb ▸ hp⟩
          | some b =>
            obtain ⟨bv, hbv⟩ := hbest b rfl
            rw [scan_cons_match_some hp hm hbv]
            by_cases hlt : Version.lt bv rv = true
            · rw [if_pos hlt]
              refine ih (some r2) ⟨r', hmem, hbadr⟩ ?_
              intro b' hb'
              injection hb' with hb'
              exact ⟨rv, hb' ▸ hp⟩
            · rw [if_neg hlt]
              refine ih (some b) ⟨r', hmem, hbadr⟩ ?_
              intro b' hb'
              injection hb' with hb'
              exact ⟨bv, hb' ▸ hbv⟩
        · rw [scan_cons_nomatch hp (by simpa using hm)]
          exact ih best ⟨r', hmem, hbadr⟩ hbest

/-! ### Release-resolution claims -/

/-- Helper: a non-fully-specified constraint routes `getRelease` to the
page-enumeration branch. -/
theorem getReleaseEnumBranch {exact : String → Option Release} {pages : List (List Release)}
    {v : Version} (hnotfull : ¬ (v.minor.isSome = true ∧ v.release.isSome = true)) :
    getRelease exact pages v = getReleaseByPages pages v := by
  have hcond : (v.minor.isSome && v.release.isSome) = false := by
    cases h1 : v.minor.isSome with
    | false => rfl
    | true =>
      cases h2 : v.release.isSome with
      | false => rfl
      | true => exact absurd ⟨h1, h2⟩ hnotfull
  unfold getRelease
  rw [hcond]
  rfl

/-- C2: for a constraint that is not fully specified, a successful
`get_release` returns a scanned release whose parsed tag matches the
constraint and is greatest (under the component-wise order) among all
matching parsed tags of the listing. -/
theorem getRelease_returns_greatest_match
    (exact : String → Option Release) (pages : List (List Release)) (v : Version) (r : Release)
    (hnotfull : ¬ (v.minor.isSome = true ∧ v.release.isSome = true))
    (hok : getRelease exact pages v = .ok r) :
    r ∈ listedReleases pages ∧
      ∃ w, Version.fromStr r.tag_name = .ok w ∧ v.matches w = true ∧
        ∀ r' ∈ listedReleases pages, ∀ w', Version.fromStr r'.tag_name = .ok w' →
          v.matches w' = true → (Version.lt w' w = true ∨ w' = w) := by
  rw [getReleaseEnumBranch hnotfull] at hok
  unfold getReleaseByPages at hok
  cases hscan : scanReleases v none (listedReleases pages) with
  | error e =>
    rw [hscan] at hok
    simp at hok
  | ok o =>
    cases o with
    | none =>
      rw [hscan] at hok
      simp at hok
    | some r0 =>
      rw [hscan] at hok
      simp only [Except.ok.injEq] at hok
      subst hok
      rcases scan_some_origin _ none r0 hscan with h1 | h1
      · simp at h1
      · obtain ⟨hmem, w, hw, hmw⟩ := h1
        refine ⟨hmem, w, hw, hmw, ?_⟩
        intro r' hr' w' hw' hm'
        obtain ⟨wr, hwr, hor⟩ := scan_result_max _ none r0 hscan r' hr' w' hw' hm'
        rw [hw] at hwr
        injection hwr with hwr
        subst hwr
        exact hor

/-- C2 witness: on the listing `16.0.0, 16.1.0, 16.2.0` with constraint
`major = 16`, resolution returns the release tagged `16.2.0`, which matches
and dominates every matching tag. -/
theorem getRelease_returns_greatest_match_witness :
    (⟨"16.2.0", []⟩ : Release) ∈
        listedReleases [[⟨"16.0.0", []⟩, ⟨"16.1.0", []⟩, ⟨"16.2.0", []⟩]] ∧
      ∃ w, Version.fromStr "16.2.0" = .ok w ∧ Version.matches ⟨16, none, none⟩ w = true ∧
        ∀ r' ∈ listedReleases [[⟨"16.0.0", []⟩, ⟨"16.1.0", []⟩, ⟨"16.2.0", []⟩]],
          ∀ w', Version.fromStr r'.tag_name = .ok w' →
            Version.matches ⟨16, none, none⟩ w' = true →
              (Version.lt w' w = true ∨ w' = w) :=
  getRelease_returns_greatest_match (fun _ => none)
    [[⟨"16.0.0", []⟩, ⟨"16.1.0", []⟩, ⟨"16.2.0", []⟩]] ⟨16, none, none⟩ ⟨"16.2.0", []⟩
    (by decide) (by decide)

/-- C7 counterexample: for a fully specified constraint (`1.0.0`) and a
listing with no matching release, `get_release` does not fail with
`ReleaseNotFound`: the exact-tag branch surfaces the endpoint's not-found
response as a transport error instead. -/
theorem getRelease_notfound_counterexample :
    getRelease (fun _ => none) [] ⟨1, some 0, some 0⟩ =
        .error (.Transport "error_for_status") ∧
      ¬ getRelease (fun _ => none) [] ⟨1, some 0, some 0⟩ =
          .error (.ReleaseNotFound (Version.toString ⟨1, some 0, some 0⟩)) := by
  constructor
  · decide
  · decide

/-- C7 (amended): for a constraint that is not fully specified and a listing
whose scanned tags all parse, `get_release` fails with `ReleaseNotFound`
carrying the requested version's string exactly when no scanned release's
parsed tag matches the constraint (in particular both for an empty listing
and for a non-empty one where nothing matches). -/
theorem getRelease_notfound_iff
    (exact : String → Option Release) (pages : List (List Release)) (v : Version)
    (hnotfull : ¬ (v.minor.isSome = true ∧ v.release.isSome = true))
    (hparse : ∀ r' ∈ listedReleases pages, ∃ w', Version.fromStr r'.tag_name = .ok w') :
    getRelease exact pages v = .error (.ReleaseNotFound (Version.toString v)) ↔
      ∀ r' ∈ listedReleases pages, ∀ w', Version.fromStr r'.tag_name = .ok w' →
        v.matches w' = false := by
  rw [getReleaseEnumBranch hnotfull]
  unfold getReleaseByPages
  constructor
  · intro h
    cases hscan : scanReleases v none (listedReleases pages) with
    | error e =>
      rw [hscan] at h
      injection h with h
      obtain ⟨s, hs⟩ := scan_error_parse _ none e hscan
      rw [hs] at h
      cases h
    | ok o =>
      cases o with
      | none => exact (scan_none_no_match _ none hscan).2
      | some r0 =>
        rw [hscan] at h
        cases h
  · intro h
    have hall : ∀ r' ∈ listedReleases pages,
        ∃ w', Version.fromStr r'.tag_name = .ok w' ∧ v.matches w' = false := by
      intro r' hr'
      obtain ⟨w', hw'⟩ := hparse r' hr'
      exact ⟨w', hw', h r' hr' w' hw'⟩
    rw [scan_none_of_no_match _ hall]

/-- C7 witness: constraint `major = 1` against the singleton listing
`16.0.0` fails with `ReleaseNotFound "1"`, and indeed nothing matches. -/
theorem getRelease_notfound_iff_witness :
    getRelease (fun _ => none) [[⟨"16.0.0", []⟩]] ⟨1, none, none⟩ =
        .error (.ReleaseNotFound (Version.toString ⟨1, none, none⟩)) ↔
      ∀ r' ∈ listedReleases [[⟨"16.0.0", []⟩]],
        ∀ w', Version.fromStr r'.tag_name = .ok w' →
          Version.matches ⟨1, none, none⟩ w' = false :=
  getRelease_notfound_iff (fun _ => none) [[⟨"16.0.0", []⟩]] ⟨1, none, none⟩
    (by decide)
    (by
      intro r' hr'
      have hl : listedReleases [[⟨"16.0.0", []⟩]] = [⟨"16.0.0", []⟩] := by decide
      rw [hl] at hr'
      simp only [List.mem_singleton] at hr'
      subst hr'
      exact ⟨⟨16, some 0, some 0⟩, by decide⟩)

/-- C8: for a constraint that is not fully specified, a scanned release
whose tag does not parse makes `get_release` fail with the version-parse
error; the malformed release is never skipped. -/
theorem getRelease_bad_tag_fails
    (exact : String → Option Release) (pages : List (List Release)) (v : Version)
    (hnotfull : ¬ (v.minor.isSome = true ∧ v.release.isSome = true))
    (hbad : ∃ r' ∈ listedReleases pages, ∀ w', ¬ Version.fromStr r'.tag_name = .ok w') :
    ∃ s, getRelease exact pages v = .error (.ParseVersion s) := by
  rw [getReleaseEnumBranch hnotfull]
  unfold getReleaseByPages
  obtain ⟨e, he⟩ := scan_err_of_bad_tag _ none hbad (by simp)
  obtain ⟨s, hs⟩ := scan_error_parse _ none e he
  subst hs
  exact ⟨s, by rw [he]⟩

/-- C8 witness: a listing containing the malformed tag `bogus` makes the
whole query fail with a parse error even though `16.0.0` also appears. -/
theorem getRelease_bad_tag_fails_witness :
    ∃ s, getRelease (fun _ => none) [[⟨"16.0.0", []⟩, ⟨"bogus", []⟩]] ⟨16, none, none⟩ =
        .error (.ParseVersion s) :=
  getRelease_bad_tag_fails (fun _ => none) [[⟨"16.0.0", []⟩, ⟨"bogus", []⟩]] ⟨16, none, none⟩
    (by decide)
    ⟨⟨"bogus", []⟩, by decide, by
      intro w' hc
      have hc' : Version.fromStr "bogus" = .ok w' := hc
      have hb : Version.fromStr "bogus" = .error (.ParseVersion "bogus") := by decide
      rw [hb] at hc'
      cases hc'⟩

/-- C3: for a fully specified constraint, on a coherent catalog (every tag is
the canonical rendering of its parsed version, and versions identify
releases), the direct exact-tag lookup branch and the page-enumeration branch
of `get_release` succeed with exactly the same release. -/
theorem getRelease_exact_enum_equiv
    (pages : List (List Release)) (v : Version) (r : Release)
    (hfull : v.minor.isSome = true ∧ v.release.isSome = true)
    (hcanon : ∀ rl ∈ listedReleases pages, ∃ w, Version.fromStr rl.tag_name = .ok w ∧
        rl.tag_name = Version.toString w)
    (huniq : ∀ rl ∈ listedReleases pages, ∀ rl' ∈ listedReleases pages, ∀ w,
        Version.fromStr rl.tag_name = .ok w → Version.fromStr rl'.tag_name = .ok w →
          rl = rl') :
    getReleaseByTag (exactFor pages) v = .ok r ↔ getReleaseByPages pages v = .ok r := by
  have hwf : v.minor = none → v.release = none := by
    intro h
    rw [h] at hfull
    simp at hfull
  have hround : Version.fromStr (Version.toString v) = .ok v := fromStr_toString v hwf
  have hparse : ∀ rl ∈ listedReleases pages, ∃ w, Version.fromStr rl.tag_name = .ok w := by
    intro rl hrl
    obtain ⟨w, hw, _⟩ := hcanon rl hrl
    exact ⟨w, hw⟩
  constructor
  · intro h
    unfold getReleaseByTag exactFor at h
    cases hfind : (listedReleases pages).find? (fun rl => rl.tag_name == Version.toString v) with
    | none =>
      rw [hfind] at h
      cases h
    | some r1 =>
      rw [hfind] at h
      have hr : r1 = r := by injection h
      have hmem : r ∈ listedReleases pages := hr ▸ List.mem_of_find?_eq_some hfind
      have htag : r.tag_name = Version.toString v := by
        have h2 := List.find?_some hfind
        rw [hr] at h2
        simpa using h2
      have hpr : Version.fromStr r.tag_name = .ok v := by
        rw [htag]
        exact hround
      unfold getReleaseByPages
      obtain ⟨o, ho⟩ := @scan_ok_of_parses v (listedReleases pages) none hparse (by simp)
      cases o with
      | none =>
        have h3 := (scan_none_no_match _ none ho).2 r hmem v hpr
        simp [Version.matches_refl] at h3
      | some r0 =>
        rcases scan_some_origin _ none r0 ho with h1 | h1
        · simp at h1
        · obtain ⟨hmem0, w0, hw0, hmw0⟩ := h1
          have hw0v : w0 = v := (matches_full_iff hfull.1 hfull.2).mp hmw0
          rw [hw0v] at hw0
          have he : r0 = r := huniq r0 hmem0 r hmem v hw0 hpr
          rw [ho, he]
  · intro h
    unfold getReleaseByPages at h
    cases hscan : scanReleases v none (listedReleases pages) with
    | error e =>
      rw [hscan] at h
      cases h
    | ok o =>
      cases o with
      | none =>
        rw [hscan] at h
        cases h
      | some r0 =>
        rw [hscan] at h
        have hr : r0 = r := by injection h
        rcases scan_some_origin _ none r0 hscan with h1 | h1
        · simp at h1
        · obtain ⟨hmem0, w, hw, hmw⟩ := h1
          have hwv : w = v := (matches_full_iff hfull.1 hfull.2).mp hmw
          rw [hwv] at hw
          rw [hr] at hmem0 hw
          obtain ⟨w2, hw2, htag2⟩ := hcanon r hmem0
          rw [hw] at hw2
          have hw2v : w2 = v := by injection hw2 with h4; exact h4.symm
          rw [hw2v] at htag2
          unfold getReleaseByTag exactFor
          cases hfind : (listedReleases pages).find? (fun rl => rl.tag_name == Version.toString v) with
          | none =>
            rw [List.find?_eq_none] at hfind
            exact absurd (by simpa using htag2) (hfind r hmem0)
          | some r1 =>
            have hmem1 : r1 ∈ listedReleases pages := List.mem_of_find?_eq_some hfind
            have htag1 : r1.tag_name = Version.toString v := by
              have h5 := List.find?_some hfind
              simpa using h5
            have hpr1 : Version.fromStr r1.tag_name = .ok v := by
              rw [htag1]
              exact hround
            have hpr : Version.fromStr r.tag_name = .ok v := by
              rw [htag2]
              exact hround
            have he : r1 = r := huniq r1 hmem1 r hmem0 v hpr1 hpr
            rw [he]

/-- C3 witness: on the singleton catalog `16.1.0` with the fully specified
constraint `16.1.0`, both branches agree on the release they return. -/
theorem getRelease_exact_enum_equiv_witness :
    getReleaseByTag (exactFor [[⟨"16.1.0", []⟩]]) ⟨16, some 1, some 0⟩ =
        .ok ⟨"16.1.0", []⟩ ↔
      getReleaseByPages [[⟨"16.1.0", []⟩]] ⟨16, some 1, some 0⟩ = .ok ⟨"16.1.0", []⟩ :=
  getRelease_exact_enum_equiv [[⟨"16.1.0", []⟩]] ⟨16, some 1, some 0⟩ ⟨"16.1.0", []⟩
    (by decide)
    (by
      intro rl hrl
      have hl : listedReleases [[⟨"16.1.0", []⟩]] = [⟨"16.1.0", []⟩] := by decide
      rw [hl] at hrl
      simp only [List.mem_singleton] at hrl
      subst hrl
      exact ⟨⟨16, some 1, some 0⟩, by decide, by decide⟩)
    (by
      intro rl hrl rl' hrl' w h1 h2
      have hl : listedReleases [[⟨"16.1.0", []⟩]] = [⟨"16.1.0", []⟩] := by decide
      rw [hl] at hrl hrl'
      simp only [List.mem_singleton] at hrl hrl'
      rw [hrl, hrl'])

/-! ### Lemmas about the asset search -/

theorem assetStep_some {an : String} {a? : Option Asset} {x a : Asset}
    (h : assetStep an a? x = some a) : a? = some a ∨ (a = x ∧ x.name = an) := by
  unfold assetStep at h
  split at h
  · next hx =>
    injection h with h
    exact Or.inr ⟨h.symm, hx⟩
  · exact Or.inl h

theorem hashStep_some {an hn : String} {h? : Option Asset} {x a : Asset}
    (h : hashStep an hn h? x = some a) : h? = some a ∨ (a = x ∧ x.name = hn) := by
  unfold hashStep at h
  split at h
  · next hx =>
    injection h with h
    exact Or.inr ⟨h.symm, hx.2⟩
  · exact Or.inl h

theorem assetStep_isSome_of {an : String} {a? : Option Asset} {x : Asset}
    (h : a?.isSome = true ∨ x.name = an) : (assetStep an a? x).isSome = true := by
  unfold assetStep
  rcases h with h | h
  · split
    · rfl
    · exact h
  · rw [if_pos h]
    rfl

theorem hashStep_isSome_of {an hn : String} {h? : Option Asset} {x : Asset}
    (h : h?.isSome = true ∨ (¬ x.name = an ∧ x.name = hn)) :
    (hashStep an hn h? x).isSome = true := by
  unfold hashStep
  rcases h with h | h
  · split
    · rfl
    · exact h
  · rw [if_pos h]
    rfl

/-- Whatever the search returns in the archive slot came from the
accumulator or is a list member carrying exactly the archive name. -/
theorem findAssets_fst_some {an hn : String} (xs : List Asset) :
    ∀ (a? h? : Option Asset) (a : Asset), (findAssets an hn a? h? xs).1 = some a →
      a? = some a ∨ (a ∈ xs ∧ a.name = an) := by
  induction xs with
  | nil =>
    intro a? h? a h
    exact Or.inl h
  | cons x rest ih =>
    intro a? h? a h
    unfold findAssets at h
    split at h
    · simp only at h
      rcases assetStep_some h with h1 | h1
      · exact Or.inl h1
      · exact Or.inr ⟨h1.1 ▸ List.mem_cons_self _ _, h1.1 ▸ h1.2⟩
    · rcases ih _ _ a h with h1 | h1
      · rcases assetStep_some h1 with h2 | h2
        · exact Or.inl h2
        · exact Or.inr ⟨h2.1 ▸ List.mem_cons_self _ _, h2.1 ▸ h2.2⟩
      · exact Or.inr ⟨List.mem_cons_of_mem _ h1.1, h1.2⟩

/-- Whatever the search returns in the checksum slot came from the
accumulator or is a list member carrying exactly the checksum name. -/
theorem findAssets_snd_some {an hn : String} (xs : List Asset) :
    ∀ (a? h? : Option Asset) (a : Asset), (findAssets an hn a? h? xs).2 = some a →
      h? = some a ∨ (a ∈ xs ∧ a.name = hn) := by
  induction xs with
  | nil =>
    intro a? h? a h
    exact Or.inl h
  | cons x rest ih =>
    intro a? h? a h
    unfold findAssets at h
    split at h
    · simp only at h
      rcases hashStep_some h with h1 | h1
      · exact Or.inl h1
      · exact Or.inr ⟨h1.1 ▸ List.mem_cons_self _ _, h1.1 ▸ h1.2⟩
    · rcases ih _ _ a h with h1 | h1
      · rcases hashStep_some h1 with h2 | h2
        · exact Or.inl h2
        · exact Or.inr ⟨h2.1 ▸ List.mem_cons_self _ _, h2.1 ▸ h2.2⟩
      · exact Or.inr ⟨List.mem_cons_of_mem _ h1.1, h1.2⟩

/-- If the archive name occurs in the list (or the slot is filled), the
search fills the archive slot. -/
theorem findAssets_fst_isSome {an hn : String} (xs : List Asset) :
    ∀ (a? h? : Option Asset), (a?.isSome = true ∨ ∃ x ∈ xs, x.name = an) →
      ((findAssets an hn a? h? xs).1).isSome = true := by
  induction xs with
  | nil =>
    intro a? h? h
    rcases h with h | h
    · exact h
    · simp at h
  | cons x rest ih =>
    intro a? h? h
    unfold findAssets
    split
    · next hbrk => exact hbrk.1
    · refine ih _ _ ?_
      rcases h with h | h
      · exact Or.inl (assetStep_isSome_of (Or.inl h))
      · obtain ⟨y, hy, hyn⟩ := h
        rcases List.mem_cons.mp hy with rfl | hy2
        · exact Or.inl (assetStep_isSome_of (Or.inr hyn))
        · exact Or.inr ⟨y, hy2, hyn⟩

/-- If the checksum name occurs in the list on an asset not named like the
archive (or the slot is filled), the search fills the checksum slot. -/
theorem findAssets_snd_isSome {an hn : String} (xs : List Asset) :
    ∀ (a? h? : Option Asset),
      (h?.isSome = true ∨ ∃ x ∈ xs, ¬ x.name = an ∧ x.name = hn) →
      ((findAssets an hn a? h? xs).2).isSome = true := by
  induction xs with
  | nil =>
    intro a? h? h
    rcases h with h | h
    · exact h
    · simp at h
  | cons x rest ih =>
    intro a? h? h
    unfold findAssets
    split
    · next hbrk => exact hbrk.2
    · refine ih _ _ ?_
      rcases h with h | h
      · exact Or.inl (hashStep_isSome_of (Or.inl h))
      · obtain ⟨y, hy, hyn⟩ := h
        rcases List.mem_cons.mp hy with rfl | hy2
        · exact Or.inl (hashStep_isSome_of (Or.inr hyn))
        · exact Or.inr ⟨y, hy2, hyn⟩

/-- The checksum name (archive name plus `.sha256`) is never the archive
name itself. -/
theorem hashName_ne_assetName (s : String) : ¬ s ++ ".sha256" = s := by
  intro h
  have hlen := congrArg String.length h
  rw [String.length_append] at hlen
  have h7 : String.length ".sha256" = 7 := rfl
  omega

/-- C4: with the release tag parsed as `v`, `get_asset` succeeds if and only
if both the archive asset `postgresql-<version>-<target>.tar.gz` and its
`.sha256` companion are present (matched by exact string equality), returning
`v` with both assets; if either is absent it fails with `AssetNotFound`
carrying the expected archive name. -/
theorem getAsset_spec (release : Release) (target : String) (v : Version)
    (hparse : Version.fromStr release.tag_name = .ok v) :
    ((∃ a ∈ release.assets, a.name = archiveAssetName v target) ∧
        (∃ g ∈ release.assets, g.name = archiveAssetName v target ++ ".sha256") →
      ∃ a g, getAsset release target = .ok (v, a, g) ∧
        a ∈ release.assets ∧ a.name = archiveAssetName v target ∧
        g ∈ release.assets ∧ g.name = archiveAssetName v target ++ ".sha256") ∧
    (¬ ((∃ a ∈ release.assets, a.name = archiveAssetName v target) ∧
        (∃ g ∈ release.assets, g.name = archiveAssetName v target ++ ".sha256")) →
      getAsset release target = .error (.AssetNotFound (archiveAssetName v target))) := by
  constructor
  · rintro ⟨⟨a0, ha0, han⟩, ⟨g0, hg0, hgn⟩⟩
    have hg0ne : ¬ g0.name = archiveAssetName v target := by
      rw [hgn]
      exact hashName_ne_assetName _
    have hfst := @findAssets_fst_isSome (archiveAssetName v target)
      (archiveAssetName v target ++ ".sha256") release.assets none none
      (Or.inr ⟨a0, ha0, han⟩)
    have hsnd := @findAssets_snd_isSome (archiveAssetName v target)
      (archiveAssetName v target ++ ".sha256") release.assets none none
      (Or.inr ⟨g0, hg0, hg0ne, hgn⟩)
    cases hres : findAssets (archiveAssetName v target)
        (archiveAssetName v target ++ ".sha256") none none release.assets with
    | mk fst? snd? =>
      rw [hres] at hfst hsnd
      cases fst? with
      | none => simp at hfst
      | some a1 =>
        cases snd? with
        | none => simp at hsnd
        | some g1 =>
          have hget : getAsset release target = .ok (v, a1, g1) := by
            unfold getAsset
            rw [hparse]
            simp only [hres]
          have hf1 := findAssets_fst_some release.assets none none a1 (by rw [hres])
          have hf2 := findAssets_snd_some release.assets none none g1 (by rw [hres])
          rcases hf1 with hf1 | hf1
          · cases hf1
          rcases hf2 with hf2 | hf2
          · cases hf2
          exact ⟨a1, g1, hget, hf1.1, hf1.2, hf2.1, hf2.2⟩
  · intro hnot
    unfold getAsset
    rw [hparse]
    cases hres : findAssets (archiveAssetName v target)
        (archiveAssetName v target ++ ".sha256") none none release.assets with
    | mk fst? snd? =>
      cases fst? with
      | none => simp only [hres]
      | some a1 =>
        cases snd? with
        | none => simp only [hres]
        | some g1 =>
          exfalso
          apply hnot
          have hf1 := findAssets_fst_some release.assets none none a1 (by rw [hres])
          have hf2 := findAssets_snd_some release.assets none none g1 (by rw [hres])
          rcases hf1 with hf1 | hf1
          · cases hf1
          rcases hf2 with hf2 | hf2
          · cases hf2
          exact ⟨⟨a1, hf1.1, hf1.2⟩, ⟨g1, hf2.1, hf2.2⟩⟩

/-- C4 witness: a release carrying both the archive and its checksum for
`x86_64-unknown-linux-gnu` satisfies the success case, and the asset pair is
returned with the parsed version `16.1.0`. -/
theorem getAsset_spec_witness :
    ((∃ a ∈ [(⟨"postgresql-16.1.0-x86_64-unknown-linux-gnu.tar.gz", "u1"⟩ : Asset),
          ⟨"postgresql-16.1.0-x86_64-unknown-linux-gnu.tar.gz.sha256", "u2"⟩],
        a.name = archiveAssetName ⟨16, some 1, some 0⟩ "x86_64-unknown-linux-gnu") ∧
        (∃ g ∈ [(⟨"postgresql-16.1.0-x86_64-unknown-linux-gnu.tar.gz", "u1"⟩ : Asset),
            ⟨"postgresql-16.1.0-x86_64-unknown-linux-gnu.tar.gz.sha256", "u2"⟩],
          g.name = archiveAssetName ⟨16, some 1, some 0⟩ "x86_64-unknown-linux-gnu" ++
            ".sha256") →
      ∃ a g, getAsset ⟨"16.1.0",
          [⟨"postgresql-16.1.0-x86_64-unknown-linux-gnu.tar.gz", "u1"⟩,
            ⟨"postgresql-16.1.0-x86_64-unknown-linux-gnu.tar.gz.sha256", "u2"⟩]⟩
            "x86_64-unknown-linux-gnu" = .ok (⟨16, some 1, some 0⟩, a, g) ∧
        a ∈ [(⟨"postgresql-16.1.0-x86_64-unknown-linux-gnu.tar.gz", "u1"⟩ : Asset),
          ⟨"postgresql-16.1.0-x86_64-unknown-linux-gnu.tar.gz.sha256", "u2"⟩] ∧
        a.name = archiveAssetName ⟨16, some 1, some 0⟩ "x86_64-unknown-linux-gnu" ∧
        g ∈ [(⟨"postgresql-16.1.0-x86_64-unknown-linux-gnu.tar.gz", "u1"⟩ : Asset),
          ⟨"postgresql-16.1.0-x86_64-unknown-linux-gnu.tar.gz.sha256", "u2"⟩] ∧
        g.name = archiveAssetName ⟨16, some 1, some 0⟩ "x86_64-unknown-linux-gnu" ++
          ".sha256") ∧
    (¬ ((∃ a ∈ [(⟨"postgresql-16.1.0-x86_64-unknown-linux-gnu.tar.gz", "u1"⟩ : Asset),
            ⟨"postgresql-16.1.0-x86_64-unknown-linux-gnu.tar.gz.sha256", "u2"⟩],
          a.name = archiveAssetName ⟨16, some 1, some 0⟩ "x86_64-unknown-linux-gnu") ∧
        (∃ g ∈ [(⟨"postgresql-16.1.0-x86_64-unknown-linux-gnu.tar.gz", "u1"⟩ : Asset),
            ⟨"postgresql-16.1.0-x86_64-unknown-linux-gnu.tar.gz.sha256", "u2"⟩],
          g.name = archiveAssetName ⟨16, some 1, some 0⟩ "x86_64-unknown-linux-gnu" ++
            ".sha256")) →
      getAsset ⟨"16.1.0",
          [⟨"postgresql-16.1.0-x86_64-unknown-linux-gnu.tar.gz", "u1"⟩,
            ⟨"postgresql-16.1.0-x86_64-unknown-linux-gnu.tar.gz.sha256", "u2"⟩]⟩
          "x86_64-unknown-linux-gnu" =
        .error (.AssetNotFound
          (archiveAssetName ⟨16, some 1, some 0⟩ "x86_64-unknown-linux-gnu"))) :=
  getAsset_spec ⟨"16.1.0",
      [⟨"postgresql-16.1.0-x86_64-unknown-linux-gnu.tar.gz", "u1"⟩,
        ⟨"postgresql-16.1.0-x86_64-unknown-linux-gnu.tar.gz.sha256", "u2"⟩]⟩
    "x86_64-unknown-linux-gnu" ⟨16, some 1, some 0⟩ (by decide)

/-! ### Lemmas about hash extraction -/

/-- A found run is a 64-character all-hex substring of the input. -/
theorem findHex64_some (l : List Char) :
    ∀ tok, findHex64 l = some tok →
      tok.length = 64 ∧ tok.all isHexLower = true ∧ ∃ pre post, l = pre ++ tok ++ post := by
  induction l with
  | nil =>
    intro tok h
    simp [findHex64] at h
  | cons c rest ih =>
    intro tok h
    unfold findHex64 at h
    split at h
    · next hcond =>
      injection h with h
      subst h
      refine ⟨?_, hcond.2, [], (c :: rest).drop 64, (List.take_append_drop _ _).symm⟩
      rw [List.length_take]
      omega
    · obtain ⟨h1, h2, pre, post, h3⟩ := ih tok h
      exact ⟨h1, h2, c :: pre, post, by rw [h3]; rfl⟩

/-- One scan step. -/
theorem findHex64_cons (c : Char) (rest : List Char) :
    findHex64 (c :: rest) =
      if 64 ≤ (c :: rest).length ∧ ((c :: rest).take 64).all isHexLower = true then
        some ((c :: rest).take 64)
      else findHex64 rest := rfl

/-- If a 64-character all-hex substring occurs anywhere, the scan finds
some run. -/
theorem findHex64_isSome {tok : List Char} (pre : List Char) :
    ∀ (post l : List Char), l = pre ++ tok ++ post → tok.length = 64 →
      tok.all isHexLower = true → (findHex64 l).isSome = true := by
  induction pre with
  | nil =>
    intro post l hl hlen hhex
    simp only [List.nil_append] at hl
    subst hl
    cases tok with
    | nil => simp at hlen
    | cons c rest =>
      have htake : (c :: (rest ++ post)).take 64 = c :: rest := by
        have h64 : (64 : Nat) = (c :: rest).length := hlen.symm
        rw [h64, ← List.cons_append]
        exact List.take_left _ _
      rw [List.cons_append, findHex64_cons, if_pos]
      · rfl
      · constructor
        · rw [List.length_cons, List.length_append]
          simp only [List.length_cons] at hlen
          omega
        · rw [htake]
          exact hhex
  | cons p pre2 ih =>
    intro post l hl hlen hhex
    subst hl
    simp only [List.cons_append]
    rw [findHex64_cons]
    split
    · rfl
    · exact ih post _ rfl hlen hhex

/-- C5: hash extraction returns a 64-character lowercase-hex token of the
checksum body whenever one occurs anywhere in it, and fails with
`AssetHashNotFound` carrying the archive asset's name exactly when no such
token is present. -/
theorem extractHash_spec (asset : Asset) (text : String) :
    ((∃ pre tok post, text.data = pre ++ tok ++ post ∧ tok.length = 64 ∧
        tok.all isHexLower = true) →
      ∃ tok, extractHash asset text = .ok (String.mk tok) ∧ tok.length = 64 ∧
        tok.all isHexLower = true ∧ ∃ pre post, text.data = pre ++ tok ++ post) ∧
    (extractHash asset text = .error (.AssetHashNotFound asset.name) ↔
      ¬ ∃ pre tok post, text.data = pre ++ tok ++ post ∧ tok.length = 64 ∧
        tok.all isHexLower = true) := by
  constructor
  · rintro ⟨pre, tok, post, hsplit, hlen, hhex⟩
    have hs := findHex64_isSome pre post text.data hsplit hlen hhex
    cases hfind : findHex64 text.data with
    | none =>
      rw [hfind] at hs
      simp at hs
    | some tok2 =>
      obtain ⟨h1, h2, pre2, post2, h3⟩ := findHex64_some text.data tok2 hfind
      refine ⟨tok2, ?_, h1, h2, pre2, post2, h3⟩
      unfold extractHash
      rw [hfind]
  · constructor
    · intro h hex
      obtain ⟨pre, tok, post, hsplit, hlen, hhex⟩ := hex
      have hs := findHex64_isSome pre post text.data hsplit hlen hhex
      unfold extractHash at h
      cases hfind : findHex64 text.data with
      | none =>
        rw [hfind] at hs
        simp at hs
      | some tok2 =>
        rw [hfind] at h
        cases h
    · intro h
      unfold extractHash
      cases hfind : findHex64 text.data with
      | none => rfl
      | some tok2 =>
        exfalso
        obtain ⟨h1, h2, pre2, post2, h3⟩ := findHex64_some text.data tok2 hfind
        exact h ⟨pre2, tok2, post2, h3, h1, h2⟩

/-- C5 witness: a checksum body of a 64-character hex token followed by the
file name, as catalogs publish it. -/
theorem extractHash_spec_witness :
    ((∃ pre tok post,
        ("aaaaaaaaaaaaaaaaaaaaaaaaaaaaaaaaaaaaaaaaaaaaaaaaaaaaaaaaaaaaaaaa  x.tar.gz" :
          String).data = pre ++ tok ++ post ∧ tok.length = 64 ∧ tok.all isHexLower = true) →
      ∃ tok, extractHash ⟨"x.tar.gz", "u"⟩
          "aaaaaaaaaaaaaaaaaaaaaaaaaaaaaaaaaaaaaaaaaaaaaaaaaaaaaaaaaaaaaaaa  x.tar.gz" =
            .ok (String.mk tok) ∧ tok.length = 64 ∧ tok.all isHexLower = true ∧
        ∃ pre post,
          ("aaaaaaaaaaaaaaaaaaaaaaaaaaaaaaaaaaaaaaaaaaaaaaaaaaaaaaaaaaaaaaaa  x.tar.gz" :
            String).data = pre ++ tok ++ post) ∧
    (extractHash ⟨"x.tar.gz", "u"⟩
        "aaaaaaaaaaaaaaaaaaaaaaaaaaaaaaaaaaaaaaaaaaaaaaaaaaaaaaaaaaaaaaaa  x.tar.gz" =
          .error (.AssetHashNotFound "x.tar.gz") ↔
      ¬ ∃ pre tok post,
        ("aaaaaaaaaaaaaaaaaaaaaaaaaaaaaaaaaaaaaaaaaaaaaaaaaaaaaaaaaaaaaaaa  x.tar.gz" :
          String).data = pre ++ tok ++ post ∧ tok.length = 64 ∧ tok.all isHexLower = true) :=
  extractHash_spec ⟨"x.tar.gz", "u"⟩
    "aaaaaaaaaaaaaaaaaaaaaaaaaaaaaaaaaaaaaaaaaaaaaaaaaaaaaaaaaaaaaaaa  x.tar.gz"

/-! ### Extraction claims -/

/-- C1 evidence: an entry whose stored path contains parent-directory
traversal is extracted WITHOUT failure, and its write lands outside the
destination: stripping the leading component of `pgroot/../../evil` leaves
`../../evil`, which joined to `dest` resolves outside `dest`. -/
theorem extract_traversal_escape :
    extractTar ["dest"] ⟨[["dest"]], []⟩ [⟨"pgroot/../../evil", 5, 420⟩] =
        .ok ⟨[["dest"]], [.writeFile ["dest", "..", "..", "evil"] 420]⟩ ∧
      staysWithin ["dest"] ["dest", "..", "..", "evil"] = false := by
  constructor
  · decide
  · decide

/-- C6: an entry processed by `extract` has its leading path component
stripped and the remainder joined to the destination; if its declared size
is zero or the target is an existing directory, the directory and all its
parents are created; otherwise the file is written with the entry's declared
mode bits applied. -/
theorem extract_entry_cases (out_dir : List String) (st : ExtractState) (e : TarEntry)
    (c : String) (cs : List String) (rest : List TarEntry)
    (hcomp : rustComponents e.path = c :: cs) :
    ∃ st2, extractEntry out_dir st e = .ok st2 ∧
      extractTar out_dir st (e :: rest) = extractTar out_dir st2 rest ∧
      ((e.size = 0 ∨ (out_dir ++ cs) ∈ st.dirs) →
        st2.actions = st.actions ++ [.mkdirAll (out_dir ++ cs)] ∧
          ∀ q ∈ ancestors (out_dir ++ cs), q ∈ st2.dirs) ∧
      (¬ (e.size = 0 ∨ (out_dir ++ cs) ∈ st.dirs) →
        st2.actions = st.actions ++ [.writeFile (out_dir ++ cs) e.mode] ∧
          st2.dirs = st.dirs) := by
  by_cases hcond : e.size = 0 ∨ (out_dir ++ cs) ∈ st.dirs
  · have hent : extractEntry out_dir st e =
        .ok ⟨st.dirs ++ ancestors (out_dir ++ cs),
          st.actions ++ [.mkdirAll (out_dir ++ cs)]⟩ := by
      unfold extractEntry
      rw [hcomp]
      simp only [if_pos hcond]
    refine ⟨_, hent, ?_, ?_, ?_⟩
    · conv_lhs => unfold extractTar
      rw [hent]
    · intro _
      exact ⟨rfl, fun q hq => List.mem_append.mpr (Or.inr hq)⟩
    · intro h
      exact absurd hcond h
  · have hent : extractEntry out_dir st e =
        .ok ⟨st.dirs, st.actions ++ [.writeFile (out_dir ++ cs) e.mode]⟩ := by
      unfold extractEntry
      rw [hcomp]
      simp only [if_neg hcond]
    refine ⟨_, hent, ?_, ?_, ?_⟩
    · conv_lhs => unfold extractTar
      rw [hent]
    · intro h
      exact absurd h hcond
    · intro _
      exact ⟨rfl, rfl⟩

/-- C6 witness: the entry `pg/bin/psql` of size 10 and mode 493 is written
to `dest/bin/psql` with mode 493. -/
theorem extract_entry_cases_witness :
    ∃ st2, extractEntry ["dest"] ⟨[["dest"]], []⟩ ⟨"pg/bin/psql", 10, 493⟩ = .ok st2 ∧
      extractTar ["dest"] ⟨[["dest"]], []⟩ [⟨"pg/bin/psql", 10, 493⟩] =
        extractTar ["dest"] st2 [] ∧
      (((⟨"pg/bin/psql", 10, 493⟩ : TarEntry).size = 0 ∨
          (["dest"] ++ ["bin", "psql"]) ∈ (⟨[["dest"]], []⟩ : ExtractState).dirs) →
        st2.actions = (⟨[["dest"]], []⟩ : ExtractState).actions ++
            [.mkdirAll (["dest"] ++ ["bin", "psql"])] ∧
          ∀ q ∈ ancestors (["dest"] ++ ["bin", "psql"]), q ∈ st2.dirs) ∧
      (¬ ((⟨"pg/bin/psql", 10, 493⟩ : TarEntry).size = 0 ∨
          (["dest"] ++ ["bin", "psql"]) ∈ (⟨[["dest"]], []⟩ : ExtractState).dirs) →
        st2.actions = (⟨[["dest"]], []⟩ : ExtractState).actions ++
            [.writeFile (["dest"] ++ ["bin", "psql"])
              (⟨"pg/bin/psql", 10, 493⟩ : TarEntry).mode] ∧
          st2.dirs = (⟨[["dest"]], []⟩ : ExtractState).dirs) :=
  extract_entry_cases ["dest"] ⟨[["dest"]], []⟩ ⟨"pg/bin/psql", 10, 493⟩ "pg" ["bin", "psql"]
    [] (by decide)

/-! ### Install claims -/

/-- C9: `install` writes exactly the entries routed by file-name suffix —
`.dylib`/`.so` under the library directory, `.control`/`.sql` under the
extension directory, all others skipped and producing no write — and returns
exactly the list of paths written. -/
theorem install_routes (library_dir extension_dir : List String) (entries : List ZipEntry) :
    ((install library_dir extension_dir entries).2 =
        ((install library_dir extension_dir entries).1).map Prod.fst ∧
      (install library_dir extension_dir entries).1 =
        entries.filterMap (installEntry library_dir extension_dir)) ∧
      ∀ e : ZipEntry,
        ((strEndsWith ((fileNameOf e.name).getD "") ".dylib" ||
            strEndsWith ((fileNameOf e.name).getD "") ".so") = true →
          installEntry library_dir extension_dir e =
            some (library_dir ++ [(fileNameOf e.name).getD ""], e.content)) ∧
        ((strEndsWith ((fileNameOf e.name).getD "") ".dylib" ||
            strEndsWith ((fileNameOf e.name).getD "") ".so") = false →
          (strEndsWith ((fileNameOf e.name).getD "") ".control" ||
            strEndsWith ((fileNameOf e.name).getD "") ".sql") = true →
          installEntry library_dir extension_dir e =
            some (extension_dir ++ [(fileNameOf e.name).getD ""], e.content)) ∧
        ((strEndsWith ((fileNameOf e.name).getD "") ".dylib" ||
            strEndsWith ((fileNameOf e.name).getD "") ".so") = false →
          (strEndsWith ((fileNameOf e.name).getD "") ".control" ||
            strEndsWith ((fileNameOf e.name).getD "") ".sql") = false →
          installEntry library_dir extension_dir e = none) := by
  constructor
  · induction entries with
    | nil => exact ⟨rfl, rfl⟩
    | cons e rest ih =>
      simp only [install]
      rw [List.filterMap_cons]
      cases hroute : installEntry library_dir extension_dir e with
      | none => exact ih
      | some w =>
        simp only [List.map_cons]
        exact ⟨by rw [ih.1], by rw [ih.2]⟩
  · intro e
    refine ⟨?_, ?_, ?_⟩
    · intro h1
      simp only [installEntry]
      rw [if_pos h1]
    · intro h1 h2
      simp only [installEntry]
      rw [if_neg (by simp [h1]), if_pos h2]
    · intro h1 h2
      simp only [installEntry]
      rw [if_neg (by simp [h1]), if_neg (by simp [h2])]

/-- One step of `splitSlash`. -/
theorem splitSlash_cons (c : Char) (rest : List Char) :
    splitSlash (c :: rest) =
      if c = '/' then [] :: splitSlash rest
      else
        match splitSlash rest with
        | [] => [[c]]
        | g :: gs => (c :: g) :: gs := rfl

/-- No group produced by `splitSlash` contains the separator. -/
theorem splitSlash_no_slash (l : List Char) : ∀ g ∈ splitSlash l, '/' ∉ g := by
  induction l with
  | nil =>
    intro g hg
    simp only [splitSlash, List.mem_singleton] at hg
    subst hg
    simp
  | cons c rest ih =>
    intro g hg
    rw [splitSlash_cons] at hg
    by_cases hc : c = '/'
    · rw [if_pos hc] at hg
      rcases List.mem_cons.mp hg with rfl | hg2
      · simp
      · exact ih g hg2
    · rw [if_neg hc] at hg
      cases hsp : splitSlash rest with
      | nil =>
        rw [hsp] at hg
        simp only [List.mem_singleton] at hg
        subst hg
        simp only [List.mem_singleton]
        intro h
        exact hc h.symm
      | cons g0 gs =>
        rw [hsp] at hg
        rcases List.mem_cons.mp hg with rfl | hg2
        · intro hmem
          rcases List.mem_cons.mp hmem with h | h
          · exact hc h.symm
          · exact ih g0 (hsp ▸ List.mem_cons_self _ _) h
        · exact ih g (hsp ▸ List.mem_cons_of_mem _ hg2)

/-- A last component extracted from a list. -/
theorem mem_of_getLast?_some {α : Type} {l : List α} {a : α} (h : l.getLast? = some a) :
    a ∈ l := by
  have h2 : a ∈ l.getLast? := by rw [h]; rfl
  obtain ⟨hne, heq⟩ := List.mem_getLast?_eq_getLast h2
  exact heq ▸ List.getLast_mem hne

/-- What Rust's `file_name` can return: a nonempty normal component with no
separator in it. -/
theorem fileNameOf_ok {s c : String} (h : fileNameOf s = some c) :
    ¬ c = "" ∧ ¬ c = "." ∧ ¬ c = ".." ∧ '/' ∉ c.data := by
  unfold fileNameOf at h
  cases hlast : (rustComponents s).getLast? with
  | none =>
    rw [hlast] at h
    cases h
  | some c0 =>
    rw [hlast] at h
    replace h : (if c0 = ".." ∨ c0 = "/" ∨ c0 = "." then none else some c0) = some c := h
    by_cases hguard : c0 = ".." ∨ c0 = "/" ∨ c0 = "."
    · rw [if_pos hguard] at h
      cases h
    · rw [if_neg hguard] at h
      injection h with h
      subst h
      push_neg at hguard
      obtain ⟨hdd, hroot, hdot⟩ := hguard
      have hmem : c0 ∈ rustComponents s := mem_of_getLast?_some hlast
      unfold rustComponents at hmem
      simp only at hmem
      have htail : ∀ p ∈ (((splitSlash s.data).map String.mk).filter
          (fun p => !(p == "" || p == "."))), ¬ p = "" ∧ '/' ∉ p.data := by
        intro p hp
        obtain ⟨hpmem, hppred⟩ := List.mem_filter.mp hp
        obtain ⟨g, hg, hgp⟩ := List.mem_map.mp hpmem
        constructor
        · intro he
          rw [he] at hppred
          simp at hppred
        · rw [← hgp]
          exact splitSlash_no_slash s.data g hg
      split at hmem
      · rcases List.mem_cons.mp hmem with rfl | hmem2
        · exact absurd rfl hroot
        · obtain ⟨h1, h2⟩ := htail c0 hmem2
          exact ⟨h1, hdot, hdd, h2⟩
      · split at hmem
        · rcases List.mem_cons.mp hmem with rfl | hmem2
          · exact absurd rfl hdot
          · obtain ⟨h1, h2⟩ := htail c0 hmem2
            exact ⟨h1, hdot, hdd, h2⟩
        · obtain ⟨h1, h2⟩ := htail c0 hmem
          exact ⟨h1, hdot, hdd, h2⟩

/-- C10: every path `install` writes (and returns) is a direct child of the
library directory or of the extension directory: only the final file-name
component of the entry's stored path is used, and it is a single normal
component — nonempty, not `.` or `..`, and free of separators. -/
theorem install_paths_direct_children (library_dir extension_dir : List String)
    (entries : List ZipEntry) (p : List String)
    (hp : p ∈ (install library_dir extension_dir entries).2) :
    ∃ n, (p = library_dir ++ [n] ∨ p = extension_dir ++ [n]) ∧
      ¬ n = "" ∧ ¬ n = "." ∧ ¬ n = ".." ∧ '/' ∉ n.data := by
  induction entries with
  | nil => simp [install] at hp
  | cons e rest ih =>
    simp only [install] at hp
    cases hroute : installEntry library_dir extension_dir e with
    | none =>
      rw [hroute] at hp
      exact ih hp
    | some w =>
      rw [hroute] at hp
      rcases List.mem_cons.mp hp with rfl | hp2
      · simp only [installEntry] at hroute
        have hname : ∀ q : String, (fileNameOf e.name).getD "" = q → ¬ q = "" →
            ¬ q = "" ∧ ¬ q = "." ∧ ¬ q = ".." ∧ '/' ∉ q.data := by
          intro q hq hqne
          cases hfn : fileNameOf e.name with
          | none =>
            rw [hfn] at hq
            exact absurd hq.symm hqne
          | some c =>
            rw [hfn] at hq
            simp only [Option.getD_some] at hq
            exact hq ▸ fileNameOf_ok hfn
        by_cases h1 : (strEndsWith ((fileNameOf e.name).getD "") ".dylib" ||
            strEndsWith ((fileNameOf e.name).getD "") ".so") = true
        · rw [if_pos h1] at hroute
          injection hroute with hroute
          have hne : ¬ (fileNameOf e.name).getD "" = "" := by
            intro he
            rw [he] at h1
            simp [strEndsWith] at h1
          obtain ⟨p1, p2, p3, p4⟩ := hname _ rfl hne
          exact ⟨(fileNameOf e.name).getD "", Or.inl (by rw [← hroute]), p1, p2, p3, p4⟩
        · rw [if_neg (by simpa using h1)] at hroute
          by_cases h2 : (strEndsWith ((fileNameOf e.name).getD "") ".control" ||
              strEndsWith ((fileNameOf e.name).getD "") ".sql") = true
          · rw [if_pos h2] at hroute
            injection hroute with hroute
            have hne : ¬ (fileNameOf e.name).getD "" = "" := by
              intro he
              rw [he] at h2
              simp [strEndsWith] at h2
            obtain ⟨p1, p2, p3, p4⟩ := hname _ rfl hne
            exact ⟨(fileNameOf e.name).getD "", Or.inr (by rw [← hroute]), p1, p2, p3, p4⟩
          · rw [if_neg (by simpa using h2)] at hroute
            cases hroute
      · exact ih hp2

/-- C10 witness: the entry stored as `a/b/../x.so` is written exactly at
`lib/x.so`, a direct child of the library directory. -/
theorem install_paths_direct_children_witness :
    (∃ n, ((["lib", "x.so"] : List String) = ["lib"] ++ [n] ∨
        (["lib", "x.so"] : List String) = ["ext"] ++ [n]) ∧
      ¬ n = "" ∧ ¬ n = "." ∧ ¬ n = ".." ∧ '/' ∉ n.data) ∧
      (install ["lib"] ["ext"] [⟨"a/b/../x.so", [7]⟩]).2 = [["lib", "x.so"]] :=
  ⟨install_paths_direct_children ["lib"] ["ext"] [⟨"a/b/../x.so", [7]⟩] ["lib", "x.so"]
      (by decide),
    by decide⟩

end PgEmbedded

